import Mathlib

/-!
Verification of the markdown-surgeon core (`parser.ts`, `hash.ts`, `cli.ts`).

Strings of the TypeScript source are modelled as `List Char`; a document's
text is the `"\n"`-join of its lines, exactly as in the source, where
`parseDocument` splits the input on `"\n"` and `serializeDocument` joins
`doc.lines` with `"\n"`.  JavaScript `number` values that are always
non-negative integers in the modelled code paths (line numbers, counts)
are modelled as `Nat`; every `a - b` in the model is commented at its use
site with the reason `b ≤ a` holds on the modelled path.
-/

set_option maxRecDepth 100000

namespace MdSurgeon

/-- Convert a string literal to the `List Char` representation used throughout. -/
def str (s : String) : List Char := s.data

/-! ## SHA-256 over byte lists (bytes are `Nat < 256`, words are `Nat < 2^32`)

Faithful model of the WebCrypto `crypto.subtle.digest("SHA-256", data)`
call used by `sectionHash` in `hash.ts`.  Arithmetic is on `Nat` with
explicit reduction `% 2^32`.
-/

def M32 : Nat := 4294967296

def add32 (a b : Nat) : Nat := (a + b) % M32

def rotr32 (x n : Nat) : Nat := ((x >>> n) ||| (x <<< (32 - n))) % M32

def not32 (x : Nat) : Nat := x ^^^ (M32 - 1)

def sigSmall0 (x : Nat) : Nat := ((rotr32 x 7) ^^^ (rotr32 x 18)) ^^^ (x >>> 3)

def sigSmall1 (x : Nat) : Nat := ((rotr32 x 17) ^^^ (rotr32 x 19)) ^^^ (x >>> 10)

def sigBig0 (x : Nat) : Nat := ((rotr32 x 2) ^^^ (rotr32 x 13)) ^^^ (rotr32 x 22)

def sigBig1 (x : Nat) : Nat := ((rotr32 x 6) ^^^ (rotr32 x 11)) ^^^ (rotr32 x 25)

def chFn (x y z : Nat) : Nat := (x &&& y) ^^^ ((not32 x) &&& z)

def majFn (x y z : Nat) : Nat := ((x &&& y) ^^^ (x &&& z)) ^^^ (y &&& z)

/-- The 64 SHA-256 round constants (FIPS 180-4), in decimal. -/
def sha256K : List Nat :=
  [1116352408, 1899447441, 3049323471, 3921009573, 961987163, 1508970993,
   2453635748, 2870763221, 3624381080, 310598401, 607225278, 1426881987,
   1925078388, 2162078206, 2614888103, 3248222580, 3835390401, 4022224774,
   264347078, 604807628, 770255983, 1249150122, 1555081692, 1996064986,
   2554220882, 2821834349, 2952996808, 3210313671, 3336571891, 3584528711,
   113926993, 338241895, 666307205, 773529912, 1294757372, 1396182291,
   1695183700, 1986661051, 2177026350, 2456956037, 2730485921, 2820302411,
   3259730800, 3345764771, 3516065817, 3600352804, 4094571909, 275423344,
   430227734, 506948616, 659060556, 883997877, 958139571, 1322822218,
   1537002063, 1747873779, 1955562222, 2024104815, 2227730452, 2361852424,
   2428436474, 2756734187, 3204031479, 3329325298]

/-- The initial SHA-256 hash state (FIPS 180-4), in decimal. -/
def sha256H0 : List Nat :=
  [1779033703, 3144134277, 1013904242, 2773480762,
   1359893119, 2600822924, 528734635, 1541459225]

/-- Pad a byte message per SHA-256: append `0x80`, zeros to 56 mod 64, then
the 64-bit big-endian bit length. -/
def padMessage (msg : List Nat) : List Nat :=
  let len := msg.length
  let bitLen := len * 8
  let zeros := (119 - len % 64) % 64
  msg ++ 0x80 :: List.replicate zeros 0 ++
    [(bitLen >>> 56) &&& 255, (bitLen >>> 48) &&& 255, (bitLen >>> 40) &&& 255,
     (bitLen >>> 32) &&& 255, (bitLen >>> 24) &&& 255, (bitLen >>> 16) &&& 255,
     (bitLen >>> 8) &&& 255, bitLen &&& 255]

/-- Split a list into `n` chunks of 64 elements. -/
def chunks64 (l : List Nat) : Nat → List (List Nat)
  | 0 => []
  | n + 1 => l.take 64 :: chunks64 (l.drop 64) n

/-- Group bytes into 32-bit big-endian words. -/
def be4 : List Nat → List Nat
  | b0 :: b1 :: b2 :: b3 :: rest => (((b0 * 256 + b1) * 256 + b2) * 256 + b3) :: be4 rest
  | _ => []

/-- Extend the 16-word block to the 64-word message schedule. -/
def extendW (w : List Nat) : Nat → List Nat
  | 0 => w
  | n + 1 =>
    let t := add32 (add32 (sigSmall1 (w.getD (w.length - 2) 0)) (w.getD (w.length - 7) 0))
      (add32 (sigSmall0 (w.getD (w.length - 15) 0)) (w.getD (w.length - 16) 0))
    extendW (w ++ [t]) n

/-- One round of the SHA-256 compression function on registers `[a,b,c,d,e,f,g,h]`. -/
def sha256Round (st : List Nat) (kt wt : Nat) : List Nat :=
  match st with
  | [a, b, c, d, e, f, g, hr] =>
    let t1 := add32 (add32 (add32 hr (sigBig1 e)) (add32 (chFn e f g) kt)) wt
    let t2 := add32 (sigBig0 a) (majFn a b c)
    [add32 t1 t2, a, b, c, add32 d t1, e, f, g]
  | other => other

/-- Process padded blocks, carrying the 8-word hash state. -/
def sha256Blocks (state : List Nat) : List (List Nat) → List Nat
  | [] => state
  | blk :: rest =>
    let w := extendW (be4 blk) 48
    let st := (sha256K.zip w).foldl (fun s kw => sha256Round s kw.1 kw.2) state
    sha256Blocks (List.zipWith add32 state st) rest

def wordToBytes (w : Nat) : List Nat :=
  [(w >>> 24) &&& 255, (w >>> 16) &&& 255, (w >>> 8) &&& 255, w &&& 255]

/-- SHA-256 digest (32 bytes) of a byte message. -/
def sha256 (msg : List Nat) : List Nat :=
  let padded := padMessage msg
  ((sha256Blocks sha256H0 (chunks64 padded (padded.length / 64))).map wordToBytes).flatten

/-! ## UTF-8 and hex encoding (model of `TextEncoder` and the hex mapping in `hash.ts`) -/

/-- UTF-8 encoding of one Unicode scalar value, as `TextEncoder` produces. -/
def utf8EncodeChar (c : Char) : List Nat :=
  let n := c.toNat
  if n < 0x80 then [n]
  else if n < 0x800 then [0xC0 ||| (n >>> 6), 0x80 ||| (n &&& 0x3F)]
  else if n < 0x10000 then
    [0xE0 ||| (n >>> 12), 0x80 ||| ((n >>> 6) &&& 0x3F), 0x80 ||| (n &&& 0x3F)]
  else
    [0xF0 ||| (n >>> 18), 0x80 ||| ((n >>> 12) &&& 0x3F),
     0x80 ||| ((n >>> 6) &&& 0x3F), 0x80 ||| (n &&& 0x3F)]

def utf8Encode (s : List Char) : List Nat := (s.map utf8EncodeChar).flatten

/-- Lowercase hex digit, as produced by `b.toString(16)`. -/
def hexDigit (n : Nat) : Char := if n < 10 then Char.ofNat (48 + n) else Char.ofNat (87 + n)

/-- `b.toString(16).padStart(2, "0")` for a byte. -/
def byteToHex (b : Nat) : List Char := [hexDigit (b / 16), hexDigit (b % 16)]

def bytesToHex (bs : List Nat) : List Char := (bs.map byteToHex).flatten

/-! ## `hash.ts` -/

/-- JavaScript whitespace as used by `trim()` and `\s` on the ASCII range
(space, tab, newline, carriage return, vertical tab, form feed); the lines
handled here never contain the non-ASCII space characters. -/
def isWs (c : Char) : Bool :=
  c = ' ' || c = '\t' || c = '\n' || c = '\r' || c = Char.ofNat 11 || c = Char.ofNat 12

/-- `s.trim()`: strip leading and trailing whitespace. -/
def trim (l : List Char) : List Char :=
  ((l.dropWhile isWs).reverse.dropWhile isWs).reverse

/-- Decimal digits of a natural number, as JS string interpolation prints it. -/
def natStr (n : Nat) : List Char := (Nat.repr n).data

/-- `sectionHash` from `hash.ts`: first 8 hex chars of the SHA-256 digest of
the UTF-8 bytes of `"{level}:{title.toLowerCase().trim()}:{occurrenceIndex}"`. -/
def sectionHash (level : Nat) (title : List Char) (occurrenceIndex : Nat) : List Char :=
  let input := natStr level ++ ':' :: (trim (title.map Char.toLower) ++ ':' :: natStr occurrenceIndex)
  (bytesToHex (sha256 (utf8Encode input))).take 8

def isHexChar (c : Char) : Bool :=
  ('0' ≤ c && c ≤ '9') || ('a' ≤ c && c ≤ 'f') || ('A' ≤ c && c ≤ 'F')

/-- `isValidId` from `hash.ts`: the regex `/^[0-9a-f]{8}$/i`. -/
def isValidId (id : List Char) : Bool := id.length = 8 && id.all isHexChar

/-! ## `types.ts`

`MdError` carries a code, a message and optional file/id context; only the
code is semantically relevant (messages are human-readable text), so errors
are modelled by their `ErrorCode`.
-/

inductive ErrorCode where
  | file_not_found
  | section_not_found
  | parse_error
  | invalid_id
  | io_error
deriving DecidableEq, Repr

deriving instance DecidableEq for Except

structure Section where
  id : List Char
  level : Nat
  title : List Char
  line : Nat
  lineEnd : Nat
deriving DecidableEq, Inhabited, Repr

structure Document where
  sections : List Section
  lines : List (List Char)
  frontmatter : Option (List Char)
  frontmatterEndLine : Nat
deriving DecidableEq, Inhabited, Repr

inductive MutationAction where
  | updated
  | created
  | appended
  | emptied
  | removed
deriving DecidableEq, Repr

structure MutationResult where
  action : MutationAction
  id : List Char
  lineStart : Nat
  lineEnd : Option Nat
  linesAdded : Nat
  linesRemoved : Nat
deriving DecidableEq, Repr

/-! ## `parser.ts` -/

/-- `content.split("\n")` of JavaScript: always returns at least one element;
`""` splits to `[""]` and a trailing newline yields a trailing `""`. -/
def splitLines : List Char → List (List Char)
  | [] => [[]]
  | c :: cs =>
    let r := splitLines cs
    if c = '\n' then [] :: r
    else
      match r with
      | [] => [[c]]
      | l :: ls => (c :: l) :: ls

/-- `lines.join("\n")` of JavaScript. -/
def joinLines : List (List Char) → List Char
  | [] => []
  | [l] => l
  | l :: ls => l ++ '\n' :: joinLines ls

/-- Model of `line.match(HEADER_REGEX)` for `HEADER_REGEX = /^(#{1,6})\s+(.+)$/`,
returning `(match[1].length, match[2].trim())` — i.e. `(level, title)` as
`parser.ts` extracts them.  The regex matches iff the maximal leading run of
`#` has length 1..6 (a seventh `#` makes every backtracking split fail on
`\s`) and is followed by a whitespace character plus at least one further
character (`\s+` then `.+`, which cannot span a newline — lines contain
none).  `match[2].trim()` equals the trim of everything after the `#` run:
if the remainder is all whitespace, backtracking leaves one whitespace char
in `match[2]` whose trim is empty, and otherwise `match[2]` is the
remainder minus its leading whitespace, whose trim is the remainder's trim. -/
def headerMatch (line : List Char) : Option (Nat × List Char) :=
  let k := (line.takeWhile (fun c => c == '#')).length
  match line.drop k with
  | c :: d :: rest =>
    if 1 ≤ k ∧ k ≤ 6 ∧ isWs c then some (k, trim (c :: d :: rest)) else none
  | _ => none

/-- `line.trim().startsWith("```") || line.trim().startsWith("~~~")`
(the code-fence toggle test of `parseDocument`). -/
def isFenceLine (line : List Char) : Bool :=
  List.isPrefixOf [Char.ofNat 96, Char.ofNat 96, Char.ofNat 96] (trim line) ||
  List.isPrefixOf ['~', '~', '~'] (trim line)

/-- `occurrences.get(key) ?? 0` for the JS `Map` tracking duplicate titles. -/
def occGet (m : List (List Char × Nat)) (k : List Char) : Nat :=
  match m.find? (fun p => p.1 == k) with
  | some p => p.2
  | none => 0

/-- `occurrences.set(key, v)`: update in place, or append a new key. -/
def occSet : List (List Char × Nat) → List Char → Nat → List (List Char × Nat)
  | [], k, v => [(k, v)]
  | p :: rest, k, v => if p.1 == k then (k, v) :: rest else p :: occSet rest k v

/-- The section-scanning loop of `parseDocument` (lines 33–65 of `parser.ts`):
walk the lines from index `i` (0-indexed), toggling the fence flag on fence
lines, skipping everything while inside a fence, and emitting a `Section`
with a provisional `lineEnd = total` (`lines.length`) for every header
match, with its occurrence counter drawn from the running map. -/
def scanAux (total : Nat) : List (List Char) → Nat → Bool → List (List Char × Nat) → List Section
  | [], _, _, _ => []
  | line :: rest, i, inCodeBlock, occ =>
    if isFenceLine line then scanAux total rest (i + 1) (!inCodeBlock) occ
    else if inCodeBlock then scanAux total rest (i + 1) inCodeBlock occ
    else
      match headerMatch line with
      | none => scanAux total rest (i + 1) inCodeBlock occ
      | some (level, title) =>
        let key := natStr level ++ ':' :: trim (title.map Char.toLower)
        let occurrence := occGet occ key
        { id := sectionHash level title occurrence, level := level, title := title,
          line := i + 1, lineEnd := total } ::
          scanAux total rest (i + 1) inCodeBlock (occSet occ key (occurrence + 1))

/-- `lines[k]?.trim() === ""` (false when `k` is out of range, as JS
`undefined?.trim()` is `undefined`). -/
def lineBlankAt (lines : List (List Char)) (k : Nat) : Bool :=
  match lines.get? k with
  | some l => trim l == ([] : List Char)
  | none => false

/-- The trailing-blank trimming loop shared by the parser's last-section
fix-up and `getSectionEndLine`'s end-of-file case: starting from `k`,
decrement while the count exceeds `floor` and the line above is blank. -/
def trimBack (lines : List (List Char)) (floor : Nat) : Nat → Nat
  | 0 => 0
  | k + 1 => if floor < k + 1 ∧ lineBlankAt lines k then trimBack lines floor k else k + 1

/-- The `lineEnd` fix-up pass of `parseDocument` (lines 67–84 of
`parser.ts`): every section but the last ends the line before the next
section's header; the last ends at end of file with trailing blank lines
trimmed, never below its own header line. -/
def fixupEnds (lines : List (List Char)) : List Section → List Section
  | [] => []
  | [s] => [{ s with lineEnd := trimBack lines s.line lines.length }]
  | s :: s' :: rest => { s with lineEnd := s'.line - 1 } :: fixupEnds lines (s' :: rest)

/-- The frontmatter scan of `parseDocument` (lines 21–30 of `parser.ts`):
when line 0 trims to `---`, the 0-indexed position of the first later line
trimming to `---`, else `none`. -/
def fmClosing (lines : List (List Char)) : Option Nat :=
  if trim (lines.headD []) == str "---" then
    match (lines.drop 1).findIdx? (fun l => trim l == str "---") with
    | some j => some (j + 1)
    | none => none
  else none

/-- `frontmatterEndLine` (also the scan start line): one past the closing
delimiter, or 0 with no frontmatter. -/
def fmEndLine (lines : List (List Char)) : Nat :=
  match fmClosing lines with
  | some i => i + 1
  | none => 0

/-- `parseDocument` from `parser.ts`.  The source is `async` only because
`sectionHash` uses the async WebCrypto API; it is a pure function of its
input: split on newlines, recognize frontmatter, scan for sections, fix up
`lineEnd`s.  With no closing frontmatter delimiter nothing is recognized
and the leading `---` is ordinary content. -/
def parseDocument (content : List Char) : Document :=
  let lines := splitLines content
  { sections := fixupEnds lines
      (scanAux lines.length (lines.drop (fmEndLine lines)) (fmEndLine lines) false []),
    lines := lines,
    frontmatter := (fmClosing lines).map (fun i => joinLines (lines.take (i + 1))),
    frontmatterEndLine := fmEndLine lines }

/-- `findSection` from `parser.ts`. -/
def findSection (doc : Document) (id : List Char) : Option Section :=
  doc.sections.find? (fun s => s.id == id)

/-- `getSectionEndLine` from `parser.ts`: locate the section's index by id
(`findIndex`, throwing `section_not_found` when absent); shallow returns the
precomputed `lineEnd`; deep scans forward for the first section with
`level <= section.level` and otherwise trims trailing blanks from the end
of file (never below the section's header line). -/
def getSectionEndLine (doc : Document) (s : Section) (deep : Bool) : Except ErrorCode Nat :=
  match doc.sections.findIdx? (fun x => x.id == s.id) with
  | none => .error .section_not_found
  | some sectionIndex =>
    if !deep then .ok s.lineEnd
    else
      match (doc.sections.drop (sectionIndex + 1)).find? (fun x => decide (x.level ≤ s.level)) with
      | some nx => .ok (nx.line - 1)
      | none => .ok (trimBack doc.lines s.line doc.lines.length)

/-- `getSectionContent` from `parser.ts`: `doc.lines.slice(section.line, endLine)`
joined with newlines. -/
def getSectionContent (doc : Document) (s : Section) (deep : Bool) : Except ErrorCode (List Char) :=
  match getSectionEndLine doc s deep with
  | .error e => .error e
  | .ok endLine => .ok (joinLines ((doc.lines.take endLine).drop s.line))

/-- `serializeDocument` from `parser.ts`: `doc.lines.join("\n")`. -/
def serializeDocument (doc : Document) : List Char := joinLines doc.lines

/-- `startsWithHeader` from `parser.ts`: match the header regex against the
first line of the content. -/
def startsWithHeader (content : List Char) : Option (Nat × List Char) :=
  headerMatch ((splitLines content).headD [])

/-! ## `cli.ts` commands

The commands are modelled on their core, file-free signatures: the file
I/O collaborator is replaced by passing the file's current text in and
returning the text that `writeFile` persists; the output formatters
(`formatRead`/`jsonMutation`/…) are the out-of-scope rendering layer, so
the commands return the structured values those formatters receive.  The
magic-expansion collaborator (`expandMagic(content, meta)`, whose output
depends on the clock and the parsed frontmatter) is passed in as an
opaque function `expand`.  Each `a - b` below mirrors a JS subtraction
whose result is non-negative on the modelled path because
`getSectionEndLine` never returns less than `section.line` when `section`
is the `findSection` result (proved below as `le_getSectionEndLine`). -/

/-- `cmdRead` (lines 245–273 of `cli.ts`), returning the
`(section, content, endLine)` triple handed to the formatter. -/
def cmdRead (fileContent id : List Char) (deep : Bool) :
    Except ErrorCode (Section × List Char × Nat) :=
  if !isValidId id then .error .invalid_id
  else
    let doc := parseDocument fileContent
    match findSection doc id with
    | none => .error .section_not_found
    | some s =>
      match getSectionEndLine doc s deep with
      | .error e => .error e
      | .ok endLine =>
        match getSectionContent doc s deep with
        | .error e => .error e
        | .ok c => .ok (s, c, endLine)

/-- `cmdWrite` (lines 275–331 of `cli.ts`): keep the header line, replace
the section's content range with the expanded new content (prefixing one
blank line when the first new line is non-blank), and report the mutation. -/
def cmdWrite (expand : List Char → List Char) (fileContent id newContent : List Char)
    (deep : Bool) : Except ErrorCode (Document × MutationResult) :=
  if !isValidId id then .error .invalid_id
  else
    let doc := parseDocument fileContent
    match findSection doc id with
    | none => .error .section_not_found
    | some s =>
      let expandedContent := expand newContent
      match getSectionEndLine doc s deep with
      | .error e => .error e
      | .ok endLine =>
        let oldLineCount := endLine - s.line
        let newLines0 := if expandedContent == ([] : List Char) then [] else splitLines expandedContent
        let newLines :=
          if newLines0.length > 0 ∧ trim (newLines0.headD []) ≠ [] then [] :: newLines0 else newLines0
        let beforeSection := doc.lines.take s.line
        let afterSection := doc.lines.drop endLine
        .ok ({ doc with lines := beforeSection ++ newLines ++ afterSection },
          { action := .updated, id := s.id, lineStart := s.line,
            lineEnd := some (s.line + newLines.length),
            linesAdded := newLines.length, linesRemoved := oldLineCount })

/-- `cmdAppend` (lines 333–429 of `cli.ts`).  `id? = none` appends at end of
file (or after frontmatter with `before`); with an id it inserts before the
header or at the section's (deep) end.  When inserting after a non-blank
line with non-blank first content line, a separating blank is unshifted.
If the expanded content starts with a header the action is `created` and
the id is looked up by re-parsing and matching `line == insertLine + 1`
and the title. -/
def cmdAppend (expand : List Char → List Char) (fileContent : List Char)
    (id? : Option (List Char)) (newContent : List Char) (deep before : Bool) :
    Except ErrorCode (Document × MutationResult) :=
  let doc := parseDocument fileContent
  let expandedContent := expand newContent
  let newLines0 := splitLines expandedContent
  let step : Except ErrorCode (Nat × Option Section) :=
    match id? with
    | none => .ok (if before then doc.frontmatterEndLine else doc.lines.length, none)
    | some id =>
      if !isValidId id then .error .invalid_id
      else
        match findSection doc id with
        | none => .error .section_not_found
        | some s =>
          if before then .ok (s.line - 1, some s)
          else
            match getSectionEndLine doc s deep with
            | .error e => .error e
            | .ok endLine => .ok (endLine, some s)
  match step with
  | .error e => .error e
  | .ok (insertLine, sec?) =>
    let newLines :=
      if !before ∧ insertLine > 0 ∧ ¬ lineBlankAt doc.lines (insertLine - 1) ∧
          trim (newLines0.headD []) ≠ [] then
        [] :: newLines0
      else newLines0
    let lines' := doc.lines.take insertLine ++ newLines ++ doc.lines.drop insertLine
    let doc' := { doc with lines := lines' }
    let headerInfo := startsWithHeader expandedContent
    let resultId0 := match sec? with | some s => s.id | none => ['-']
    let resultId :=
      match headerInfo with
      | none => resultId0
      | some (_, title) =>
        let newDoc := parseDocument (serializeDocument doc')
        match newDoc.sections.find? (fun s => s.line == insertLine + 1 && s.title == title) with
        | some newSection => newSection.id
        | none => resultId0
    .ok (doc',
      { action := if headerInfo.isSome then .created else .appended, id := resultId,
        lineStart := insertLine + 1,
        lineEnd := if headerInfo.isSome then some (insertLine + newLines.length) else none,
        linesAdded := newLines.length, linesRemoved := 0 })

/-- `cmdEmpty` (lines 431–474 of `cli.ts`): keep the header, splice out the
content range, never inject a blank. -/
def cmdEmpty (fileContent id : List Char) (deep : Bool) :
    Except ErrorCode (Document × MutationResult) :=
  if !isValidId id then .error .invalid_id
  else
    let doc := parseDocument fileContent
    match findSection doc id with
    | none => .error .section_not_found
    | some s =>
      match getSectionEndLine doc s deep with
      | .error e => .error e
      | .ok endLine =>
        .ok ({ doc with lines := doc.lines.take s.line ++ doc.lines.drop endLine },
          { action := .emptied, id := s.id, lineStart := s.line, lineEnd := none,
            linesAdded := 0, linesRemoved := endLine - s.line })

/-- `cmdRemove` (lines 476–518 of `cli.ts`): always deep, splice out header
line and content; `linesRemoved` counts the header too. -/
def cmdRemove (fileContent id : List Char) :
    Except ErrorCode (Document × MutationResult) :=
  if !isValidId id then .error .invalid_id
  else
    let doc := parseDocument fileContent
    match findSection doc id with
    | none => .error .section_not_found
    | some s =>
      match getSectionEndLine doc s true with
      | .error e => .error e
      | .ok endLine =>
        .ok ({ doc with lines := doc.lines.take (s.line - 1) ++ doc.lines.drop endLine },
          { action := .removed, id := s.id, lineStart := s.line, lineEnd := none,
            linesAdded := 0, linesRemoved := endLine - s.line + 1 })

/-! ## File-state wrappers

In `cli.ts` every mutating command reads the whole file once at entry and
performs exactly one `writeFile(file, serializeDocument(doc))` call, placed
after every error check (`invalid_id`, `section_not_found`); a thrown
`MdError` leaves the file untouched.  The wrappers make that file-state
protocol explicit: the state is the file's text, and only a successful run
replaces it. -/

def runWrite (expand : List Char → List Char) (id newContent : List Char) (deep : Bool)
    (fs : List Char) : Except ErrorCode MutationResult × List Char :=
  match cmdWrite expand fs id newContent deep with
  | .ok (doc, r) => (.ok r, serializeDocument doc)
  | .error e => (.error e, fs)

def runAppend (expand : List Char → List Char) (id? : Option (List Char))
    (newContent : List Char) (deep before : Bool) (fs : List Char) :
    Except ErrorCode MutationResult × List Char :=
  match cmdAppend expand fs id? newContent deep before with
  | .ok (doc, r) => (.ok r, serializeDocument doc)
  | .error e => (.error e, fs)

def runEmpty (id : List Char) (deep : Bool) (fs : List Char) :
    Except ErrorCode MutationResult × List Char :=
  match cmdEmpty fs id deep with
  | .ok (doc, r) => (.ok r, serializeDocument doc)
  | .error e => (.error e, fs)

def runRemove (id : List Char) (fs : List Char) :
    Except ErrorCode MutationResult × List Char :=
  match cmdRemove fs id with
  | .ok (doc, r) => (.ok r, serializeDocument doc)
  | .error e => (.error e, fs)

/-! ## Specification-side definitions and concrete inputs for the claims -/

/-- The deep boundary exactly as the specification phrases it, relative to
the section's own position `i` in `doc.sections`: the line before the first
*subsequent* section whose level is at most `s.level`, or end of file with
trailing blank lines trimmed back (never below `s.line`). -/
def specDeepEnd (doc : Document) (i : Nat) (s : Section) : Nat :=
  match (doc.sections.drop (i + 1)).find? (fun x => decide (x.level ≤ s.level)) with
  | some nx => nx.line - 1
  | none => trimBack doc.lines s.line doc.lines.length

/-- The lines spliced in by `write`, as the specification phrases the
rule: the new content split on newlines, with a single leading blank line
inserted when the content is non-empty and its first line is non-blank. -/
def writeInsertedLines (expanded : List Char) : List (List Char) :=
  if expanded = [] then []
  else if trim ((splitLines expanded).headD []) = [] then splitLines expanded
  else [] :: splitLines expanded

/-- The specification's shallow/deep, write and remove example document. -/
def c3Example : List Char := str "# A\nx\n\n## B\ny\n\n# C"

/-- A document whose first and third headers receive the same 8-hex-char id:
`sha256("1:c13868:0")` and `sha256("1:c37442:0")` share the prefix
`fb685286`. -/
def c3CollisionDoc : List Char := str "# c13868\nx\n## mid\n# c37442\ny"

/-- The specification's fenced-code example. -/
def c7Example : List Char := str "# A\n```\n# not a header\n```\n## B"

/-- The specification's write example. -/
def c5Example : List Char := str "# A\nold\n\n# B\nkeep"

/-- File and content of the failing append input for claim C4. -/
def c4File : List Char := str "# A\nx"

def c4Content : List Char := str "# B\nnew"

/-! ## Basic lemmas about line splitting and joining -/

theorem splitLines_ne_nil (t : List Char) : splitLines t ≠ [] := by
  cases t with
  | nil => simp [splitLines]
  | cons c cs =>
    simp only [splitLines]
    split
    · simp
    · split <;> simp

theorem joinLines_cons (l : List Char) (ls : List (List Char)) (hne : ls ≠ []) :
    joinLines (l :: ls) = l ++ '\n' :: joinLines ls := by
  cases ls with
  | nil => exact absurd rfl hne
  | cons l' ls' => rfl

theorem joinLines_splitLines (t : List Char) : joinLines (splitLines t) = t := by
  induction t with
  | nil => rfl
  | cons c cs ih =>
    by_cases hc : c = '\n'
    · subst hc
      have h1 : splitLines ('\n' :: cs) = [] :: splitLines cs := by simp [splitLines]
      rw [h1, joinLines_cons _ _ (splitLines_ne_nil cs)]
      simp [ih]
    · simp only [splitLines, if_neg hc]
      cases h : splitLines cs with
      | nil => exact absurd h (splitLines_ne_nil cs)
      | cons l ls =>
        rw [h] at ih
        cases ls with
        | nil => simpa [joinLines] using congrArg (fun x => c :: x) ih
        | cons l' ls' =>
          rw [joinLines_cons _ _ (by simp)] at ih ⊢
          simpa using congrArg (fun x => c :: x) ih

theorem parseDocument_lines (t : List Char) : (parseDocument t).lines = splitLines t := rfl

theorem serialize_parse (t : List Char) : serializeDocument (parseDocument t) = t :=
  joinLines_splitLines t

/-- C1: for every input text `t`, serializing the parse of the serialization
of the parse of `t` yields the same text as serializing the parse of `t`
alone — `serialize (parse (serialize (parse t))) = serialize (parse t)`,
where serialization joins `doc.lines` with the newline character.  (In this
implementation `serialize ∘ parse` is the identity on texts, so the
round-trip holds.) -/
theorem parse_serialize_roundtrip (t : List Char) :
    serializeDocument (parseDocument (serializeDocument (parseDocument t))) =
      serializeDocument (parseDocument t) :=
  serialize_parse _

/-! ## Scan and fix-up invariants (used for claims C2, C3, C7) -/

theorem scanAux_mem_line_bounds (total : Nat) (rest : List (List Char)) :
    ∀ (i : Nat) (b : Bool) (occ : List (List Char × Nat)) (s : Section),
      s ∈ scanAux total rest i b occ → i + 1 ≤ s.line ∧ s.line ≤ i + rest.length := by
  induction rest with
  | nil => intro i b occ s h; simp [scanAux] at h
  | cons line rest ih =>
    intro i b occ s h
    simp only [scanAux] at h
    split at h
    · have := ih (i + 1) (!b) occ s h; simp at this ⊢; omega
    · split at h
      · have := ih (i + 1) b occ s h; simp at this ⊢; omega
      · split at h
        · have := ih (i + 1) b occ s h; simp at this ⊢; omega
        · simp only [List.mem_cons] at h
          rcases h with h | h
          · subst h; exact ⟨by simp, by simp⟩
          · have := ih (i + 1) b _ s h; simp at this ⊢; omega

theorem scanAux_pairwise (total : Nat) (rest : List (List Char)) :
    ∀ (i : Nat) (b : Bool) (occ : List (List Char × Nat)),
      List.Pairwise (fun a b => a.line < b.line) (scanAux total rest i b occ) := by
  induction rest with
  | nil => intro i b occ; simp [scanAux]
  | cons line rest ih =>
    intro i b occ
    simp only [scanAux]
    split
    · exact ih _ _ _
    · split
      · exact ih _ _ _
      · split
        · exact ih _ _ _
        · refine List.Pairwise.cons ?_ (ih _ _ _)
          intro s hs
          have := scanAux_mem_line_bounds total rest (i + 1) _ _ s hs
          simp
          omega

theorem trimBack_le (lines : List (List Char)) (floor : Nat) :
    ∀ k, trimBack lines floor k ≤ k := by
  intro k
  induction k with
  | zero => simp [trimBack]
  | succ k ih =>
    simp only [trimBack]
    split
    · omega
    · omega

theorem le_trimBack (lines : List (List Char)) (floor : Nat) :
    ∀ k, floor ≤ k → floor ≤ trimBack lines floor k := by
  intro k
  induction k with
  | zero => intro h; simpa [trimBack] using h
  | succ k ih =>
    intro h
    simp only [trimBack]
    split
    · rename_i hc
      exact ih (by omega)
    · exact h

theorem fixupEnds_map_line (lines : List (List Char)) :
    ∀ ss : List Section,
      (fixupEnds lines ss).map (fun s => s.line) = ss.map (fun s => s.line) := by
  intro ss
  induction ss with
  | nil => rfl
  | cons s tail ih =>
    cases tail with
    | nil => rfl
    | cons s' rest => simpa [fixupEnds] using ih

theorem fixupEnds_head_line (lines : List (List Char)) (s : Section) (rest : List Section) :
    ∃ e rest', fixupEnds lines (s :: rest) = { s with lineEnd := e } :: rest' := by
  cases rest with
  | nil => exact ⟨_, _, rfl⟩
  | cons s' rest => exact ⟨_, _, rfl⟩

theorem fixupEnds_props (lines : List (List Char)) :
    ∀ ss : List Section,
      List.Pairwise (fun a b => a.line < b.line) ss →
      (∀ s ∈ ss, 1 ≤ s.line ∧ s.line ≤ lines.length) →
      (∀ s ∈ fixupEnds lines ss, s.line ≤ s.lineEnd) ∧
        List.Chain' (fun a b => a.lineEnd < b.line) (fixupEnds lines ss) := by
  intro ss
  induction ss with
  | nil => intro _ _; simp [fixupEnds]
  | cons s tail ih =>
    intro hpw hb
    cases tail with
    | nil =>
      refine ⟨?_, by simp [fixupEnds]⟩
      intro x hx
      simp only [fixupEnds, List.mem_singleton] at hx
      subst hx
      have h1 := (hb s (by simp)).2
      simpa using le_trimBack lines s.line lines.length h1
    | cons s' rest =>
      have hlt : s.line < s'.line := List.rel_of_pairwise_cons hpw (by simp)
      have hpw' : List.Pairwise (fun a b => a.line < b.line) (s' :: rest) := hpw.of_cons
      have hb' : ∀ x ∈ s' :: rest, 1 ≤ x.line ∧ x.line ≤ lines.length := by
        intro x hx; exact hb x (List.mem_cons_of_mem _ hx)
      obtain ⟨hmem, hchain⟩ := ih hpw' hb'
      constructor
      · intro x hx
        simp only [fixupEnds, List.mem_cons] at hx
        rcases hx with hx | hx
        · subst hx; simp; omega
        · exact hmem x hx
      · obtain ⟨e, rest', heq⟩ := fixupEnds_head_line lines s' rest
        show List.Chain' _ ({ s with lineEnd := s'.line - 1 } :: fixupEnds lines (s' :: rest))
        rw [List.chain'_cons']
        refine ⟨?_, hchain⟩
        intro b hbmem
        rw [heq] at hbmem
        simp only [List.head?_cons, Option.mem_def, Option.some.injEq] at hbmem
        subst hbmem
        have h1 := (hb' s' (by simp)).1
        simp
        omega

theorem fmEndLine_le (lines : List (List Char)) : fmEndLine lines ≤ lines.length := by
  unfold fmEndLine fmClosing
  split
  · rename_i i heq
    split at heq
    · split at heq
      · rename_i j hj
        have := List.findIdx?_eq_some_iff_findIdx_eq.mp hj
        simp only [Option.some.injEq] at heq
        have hlen := this.1
        rw [List.length_drop] at hlen
        omega
      · exact absurd heq (by simp)
    · exact absurd heq (by simp)
  · omega

theorem parseDocument_sections_def (t : List Char) :
    (parseDocument t).sections =
      fixupEnds (splitLines t)
        (scanAux (splitLines t).length
          ((splitLines t).drop (fmEndLine (splitLines t)))
          (fmEndLine (splitLines t)) false []) := rfl

theorem parse_invariants_core (t : List Char) :
    List.Pairwise (fun a b => a.line < b.line) (parseDocument t).sections ∧
    (∀ s ∈ (parseDocument t).sections, s.line ≤ s.lineEnd) ∧
    List.Chain' (fun a b => a.lineEnd < b.line) (parseDocument t).sections := by
  rw [parseDocument_sections_def]
  set lines := splitLines t with hl
  set st := fmEndLine lines with hst
  set ss := scanAux lines.length (lines.drop st) st false [] with hss
  have hstle : st ≤ lines.length := fmEndLine_le lines
  have hpw : List.Pairwise (fun a b => a.line < b.line) ss := scanAux_pairwise _ _ _ _ _
  have hb : ∀ s ∈ ss, 1 ≤ s.line ∧ s.line ≤ lines.length := by
    intro s hs
    have := scanAux_mem_line_bounds lines.length (lines.drop st) st false [] s hs
    rw [List.length_drop] at this
    omega
  obtain ⟨h1, h2⟩ := fixupEnds_props lines ss hpw hb
  refine ⟨List.pairwise_map.mp ?_, h1, h2⟩
  rw [fixupEnds_map_line lines ss]
  exact List.pairwise_map.mpr hpw

/-- C2: for every input text `t`, the sections of `parseDocument t` are
sorted strictly ascending by `line` (so no two sections share a line),
every section satisfies `line ≤ lineEnd`, and consecutive sections satisfy
`s[i].lineEnd < s[i+1].line`. -/
theorem parse_sections_invariants (t : List Char) :
    List.Pairwise (fun a b => a.line < b.line) (parseDocument t).sections ∧
    (∀ s ∈ (parseDocument t).sections, s.line ≤ s.lineEnd) ∧
    List.Chain' (fun a b => a.lineEnd < b.line) (parseDocument t).sections :=
  parse_invariants_core t

/-- Witness for `parse_sections_invariants`: the invariants instantiated on
a concrete two-section document, with the membership hypothesis of the
middle conjunct discharged on its first section. -/
theorem parse_sections_invariants_witness :
    (List.Pairwise (fun a b => a.line < b.line)
        (parseDocument (str "# A\nx\n\n## B\ny")).sections ∧
      ((parseDocument (str "# A\nx\n\n## B\ny")).sections.getD 0 default ∈
          (parseDocument (str "# A\nx\n\n## B\ny")).sections ∧
        ((parseDocument (str "# A\nx\n\n## B\ny")).sections.getD 0 default).line ≤
          ((parseDocument (str "# A\nx\n\n## B\ny")).sections.getD 0 default).lineEnd) ∧
      List.Chain' (fun a b => a.lineEnd < b.line)
        (parseDocument (str "# A\nx\n\n## B\ny")).sections) :=
  ⟨(parse_sections_invariants (str "# A\nx\n\n## B\ny")).1,
    ⟨by decide,
      (parse_sections_invariants (str "# A\nx\n\n## B\ny")).2.1 _ (by decide)⟩,
    (parse_sections_invariants (str "# A\nx\n\n## B\ny")).2.2⟩

/-! ## The boundary resolver (claim C3) -/

theorem findIdx?_of_get?_of_pairwise_ne {α β : Type} [BEq β] [LawfulBEq β] (f : α → β) :
    ∀ (l : List α) (i : Nat) (a : α),
      l.get? i = some a →
      List.Pairwise (fun x y => f x ≠ f y) l →
      l.findIdx? (fun x => f x == f a) = some i := by
  intro l
  induction l with
  | nil => intro i a h _; simp at h
  | cons x xs ih =>
    intro i a hget hpw
    cases i with
    | zero =>
      simp only [List.get?_cons_zero, Option.some.injEq] at hget
      subst hget
      simp [List.findIdx?_cons]
    | succ i =>
      simp only [List.get?_cons_succ] at hget
      have hmem : a ∈ xs := List.get?_mem hget
      have hne : f x ≠ f a := List.rel_of_pairwise_cons hpw hmem
      have hpx : (f x == f a) = false := by simpa using hne
      simp only [List.findIdx?_cons, hpx, Bool.false_eq_true, if_false, List.findIdx?_start_succ]
      rw [ih i a hget hpw.of_cons]
      simp

/-- C3 (amended): for every parsed document whose sections carry pairwise
distinct ids (the parser derives ids from distinct hash inputs, but two
8-hex-char hashes can collide, hence the hypothesis), and every section
`s` at position `i` of `doc.sections`: `getSectionEndLine doc s false`
equals `s.lineEnd`, and `getSectionEndLine doc s true` equals the line
before the first subsequent section of level at most `s.level`, or, when
none exists, end of file with trailing all-whitespace lines trimmed back
but never below `s.line`. -/
theorem getSectionEndLine_spec (t : List Char) (i : Nat) (s : Section)
    (hnd : List.Pairwise (fun a b => a.id ≠ b.id) (parseDocument t).sections)
    (hi : (parseDocument t).sections.get? i = some s) :
    getSectionEndLine (parseDocument t) s false = .ok s.lineEnd ∧
    getSectionEndLine (parseDocument t) s true = .ok (specDeepEnd (parseDocument t) i s) := by
  have hfi : (parseDocument t).sections.findIdx? (fun x => x.id == s.id) = some i :=
    findIdx?_of_get?_of_pairwise_ne (fun x => x.id) _ i s hi hnd
  constructor
  · simp [getSectionEndLine, hfi]
  · simp only [getSectionEndLine, hfi]
    cases hfind : ((parseDocument t).sections.drop (i + 1)).find?
        (fun x => decide (x.level ≤ s.level)) with
    | none => simp [specDeepEnd, hfind]
    | some nx => simp [specDeepEnd, hfind]

/-- Witness for `getSectionEndLine_spec` on the specification's own
shallow/deep example: section `A` ends at line 3 shallow and line 6 deep. -/
theorem getSectionEndLine_spec_witness :
    (List.Pairwise (fun a b => a.id ≠ b.id) (parseDocument c3Example).sections ∧
      (parseDocument c3Example).sections.get? 0 =
        some ((parseDocument c3Example).sections.getD 0 default) ∧
      ((parseDocument c3Example).sections.getD 0 default).lineEnd = 3 ∧
      specDeepEnd (parseDocument c3Example) 0
        ((parseDocument c3Example).sections.getD 0 default) = 6) ∧
    (getSectionEndLine (parseDocument c3Example)
        ((parseDocument c3Example).sections.getD 0 default) false =
      .ok ((parseDocument c3Example).sections.getD 0 default).lineEnd ∧
    getSectionEndLine (parseDocument c3Example)
        ((parseDocument c3Example).sections.getD 0 default) true =
      .ok (specDeepEnd (parseDocument c3Example) 0
        ((parseDocument c3Example).sections.getD 0 default))) :=
  ⟨⟨by decide, by decide, by decide, by decide⟩,
    getSectionEndLine_spec c3Example 0 _ (by decide) (by decide)⟩

/-- Counterexample to C3 as stated (without the distinct-ids hypothesis):
for the third section of `c3CollisionDoc` — a section of
`doc.sections` — the deep boundary returned by `getSectionEndLine` is not
the line of the first subsequent section of level ≤ its level minus 1 /
trimmed end of file: the id collision makes `findIndex` locate the first
twin, so the scan returns `3` (the line *before* the section's own header)
instead of `5`. -/
theorem getSectionEndLine_claimC3_counterexample :
    ((parseDocument c3CollisionDoc).sections.get? 2 =
        some ((parseDocument c3CollisionDoc).sections.getD 2 default)) ∧
    getSectionEndLine (parseDocument c3CollisionDoc)
        ((parseDocument c3CollisionDoc).sections.getD 2 default) true =
      .ok 3 ∧
    specDeepEnd (parseDocument c3CollisionDoc) 2
        ((parseDocument c3CollisionDoc).sections.getD 2 default) = 5 ∧
    (3 : Nat) ≠ 5 := by
  refine ⟨by decide, ?_, by decide, by decide⟩
  decide

/-! ## Fence soundness of the scan (claim C7) -/

theorem scanAux_sound (total : Nat) (rest : List (List Char)) :
    ∀ (i : Nat) (b : Bool) (occ : List (List Char × Nat)) (s : Section),
      s ∈ scanAux total rest i b occ →
      ∃ j ln, rest.get? j = some ln ∧ s.line = i + j + 1 ∧
        isFenceLine ln = false ∧ headerMatch ln = some (s.level, s.title) ∧
        ((rest.take j).countP isFenceLine + (if b then 1 else 0)) % 2 = 0 := by
  induction rest with
  | nil => intro i b occ s h; simp [scanAux] at h
  | cons line rest ih =>
    intro i b occ s h
    simp only [scanAux] at h
    split at h
    · rename_i hfence
      obtain ⟨j, ln, hget, hline, hf, hhm, hpar⟩ := ih (i + 1) (!b) occ s h
      refine ⟨j + 1, ln, by simpa using hget, by omega, hf, hhm, ?_⟩
      rw [List.take_succ_cons, List.countP_cons_of_pos _ _ hfence]
      cases b <;> simp at hpar ⊢ <;> omega
    · rename_i hfence
      split at h
      · rename_i hcode
        obtain ⟨j, ln, hget, hline, hf, hhm, hpar⟩ := ih (i + 1) b occ s h
        refine ⟨j + 1, ln, by simpa using hget, by omega, hf, hhm, ?_⟩
        rw [List.take_succ_cons, List.countP_cons_of_neg _ _ (by simp [hfence])]
        exact hpar
      · rename_i hcode
        split at h
        · obtain ⟨j, ln, hget, hline, hf, hhm, hpar⟩ := ih (i + 1) b occ s h
          refine ⟨j + 1, ln, by simpa using hget, by omega, hf, hhm, ?_⟩
          rw [List.take_succ_cons, List.countP_cons_of_neg _ _ (by simp [hfence])]
          exact hpar
        · rename_i level title hhead
          simp only [List.mem_cons] at h
          rcases h with h | h
          · subst h
            refine ⟨0, line, rfl, by simp, by simpa using hfence, by simpa using hhead, ?_⟩
            simp at hcode
            simp [hcode]
          · obtain ⟨j, ln, hget, hline, hf, hhm, hpar⟩ := ih (i + 1) b _ s h
            refine ⟨j + 1, ln, by simpa using hget, by omega, hf, hhm, ?_⟩
            rw [List.take_succ_cons, List.countP_cons_of_neg _ _ (by simp [hfence])]
            exact hpar

theorem fixupEnds_mem (lines : List (List Char)) :
    ∀ (ss : List Section) (s : Section), s ∈ fixupEnds lines ss →
      ∃ s0 ∈ ss, s.line = s0.line ∧ s.level = s0.level ∧ s.title = s0.title ∧ s.id = s0.id := by
  intro ss
  induction ss with
  | nil => intro s h; simp [fixupEnds] at h
  | cons s0 tail ih =>
    intro s h
    cases tail with
    | nil =>
      simp only [fixupEnds, List.mem_singleton] at h
      exact ⟨s0, by simp, by simp [h]⟩
    | cons s1 rest =>
      simp only [fixupEnds, List.mem_cons] at h
      rcases h with h | h
      · exact ⟨s0, by simp, by simp [h]⟩
      · obtain ⟨x, hx, hprops⟩ := ih s h
        exact ⟨x, List.mem_cons_of_mem _ hx, hprops⟩

/-- C7: headers inside fenced code blocks never become sections.  First
conjunct (soundness, every input): every parsed section sits at a line
that matches the header regex, is itself no fence line, and is preceded —
between the scan start (after frontmatter) and the header — by an even
number of fence-toggle lines, i.e. the fence flag is clear there.  Second
conjunct: the five-line example `"# A\n‵‵‵\n# not a header\n‵‵‵\n## B"`
parses to exactly two sections, titled `A` (level 1) and `B` (level 2). -/
theorem parse_skips_fenced_headers :
    (∀ (t : List Char) (s : Section), s ∈ (parseDocument t).sections →
      ∃ ln, (splitLines t).get? (s.line - 1) = some ln ∧
        isFenceLine ln = false ∧
        headerMatch ln = some (s.level, s.title) ∧
        (((splitLines t).drop (parseDocument t).frontmatterEndLine).take
            (s.line - 1 - (parseDocument t).frontmatterEndLine)).countP isFenceLine % 2 = 0) ∧
    (parseDocument c7Example).sections.map (fun s => (s.level, s.title)) =
      [(1, str "A"), (2, str "B")] := by
  constructor
  · intro t s hs
    rw [parseDocument_sections_def] at hs
    obtain ⟨s0, hs0, hline, hlevel, htitle, -⟩ := fixupEnds_mem _ _ _ hs
    obtain ⟨j, ln, hget, hline0, hf, hhm, hpar⟩ :=
      scanAux_sound (splitLines t).length _ (fmEndLine (splitLines t)) false [] s0 hs0
    have hfm : (parseDocument t).frontmatterEndLine = fmEndLine (splitLines t) := rfl
    have hj : s.line - 1 - (parseDocument t).frontmatterEndLine = j := by
      rw [hfm]; omega
    refine ⟨ln, ?_, hf, by rw [hlevel, htitle]; exact hhm, ?_⟩
    · rw [List.get?_eq_getElem?] at hget ⊢
      rw [List.getElem?_drop] at hget
      have : s.line - 1 = fmEndLine (splitLines t) + j := by omega
      rw [this]
      exact hget
    · rw [hj, hfm]
      simpa using hpar
  · decide

/-- Witness for `parse_skips_fenced_headers`: its universal conjunct
instantiated on the fence example's first section. -/
theorem parse_skips_fenced_headers_witness :
    ((parseDocument c7Example).sections.getD 0 default ∈ (parseDocument c7Example).sections) ∧
    (∃ ln, (splitLines c7Example).get?
          (((parseDocument c7Example).sections.getD 0 default).line - 1) = some ln ∧
        isFenceLine ln = false ∧
        headerMatch ln = some (((parseDocument c7Example).sections.getD 0 default).level,
          ((parseDocument c7Example).sections.getD 0 default).title) ∧
        (((splitLines c7Example).drop (parseDocument c7Example).frontmatterEndLine).take
            (((parseDocument c7Example).sections.getD 0 default).line - 1 -
              (parseDocument c7Example).frontmatterEndLine)).countP isFenceLine % 2 = 0) :=
  ⟨by decide, parse_skips_fenced_headers.1 c7Example _ (by decide)⟩

/-! ## Claim C8: the identifier generator -/

/-- C8: `sectionHash` is the first 8 hex characters of the SHA-256 digest
of the UTF-8 bytes of `"{level}:{lowercased trimmed title}:{occurrence}"`
(that is its definition above).  Consequently: normalization makes
`(1,"Title",0)`, `(1,"title  ",0)` and `(1,"TITLE",0)` coincide; the four
ids `(1,"Title",0)`, `(1,"Title",1)`, `(2,"Title",0)`, `(1,"Other",0)` are
pairwise distinct; and parsing a document with two identical headers
assigns occurrence indices 0 and 1 — hence the distinct ids
`sectionHash 1 "Title" 0` and `sectionHash 1 "Title" 1`. -/
theorem sectionHash_spec :
    (sectionHash 1 (str "Title") 0 = sectionHash 1 (str "title  ") 0 ∧
     sectionHash 1 (str "Title") 0 = sectionHash 1 (str "TITLE") 0) ∧
    (sectionHash 1 (str "Title") 0 ≠ sectionHash 1 (str "Title") 1 ∧
     sectionHash 1 (str "Title") 0 ≠ sectionHash 2 (str "Title") 0 ∧
     sectionHash 1 (str "Title") 0 ≠ sectionHash 1 (str "Other") 0 ∧
     sectionHash 1 (str "Title") 1 ≠ sectionHash 2 (str "Title") 0 ∧
     sectionHash 1 (str "Title") 1 ≠ sectionHash 1 (str "Other") 0 ∧
     sectionHash 2 (str "Title") 0 ≠ sectionHash 1 (str "Other") 0) ∧
    ((parseDocument (str "# Title\n\n# Title")).sections.map (fun s => s.id) =
      [sectionHash 1 (str "Title") 0, sectionHash 1 (str "Title") 1] ∧
     sectionHash 1 (str "Title") 0 ≠ sectionHash 1 (str "Title") 1) := by
  refine ⟨⟨by decide, by decide⟩, ⟨?_, ?_, ?_, ?_, ?_, ?_⟩, by decide, by decide⟩ <;> decide

/-! ## Helper lemmas for the mutation commands (claims C4–C6, C9, C10) -/

theorem get?_of_findIdx?_of_find? {α : Type} (p : α → Bool) :
    ∀ (l : List α) (i : Nat) (a : α),
      l.findIdx? p = some i → l.find? p = some a → l.get? i = some a := by
  intro l
  induction l with
  | nil => intro i a h _; simp at h
  | cons x xs ih =>
    intro i a hidx hfind
    by_cases hp : p x
    · rw [List.findIdx?_cons, if_pos hp] at hidx
      rw [List.find?_cons_of_pos _ hp] at hfind
      simp only [Option.some.injEq] at hidx hfind
      subst hidx; subst hfind
      rfl
    · rw [List.findIdx?_cons, if_neg hp, List.findIdx?_start_succ] at hidx
      rw [List.find?_cons_of_neg _ hp] at hfind
      cases hidx0 : xs.findIdx? p with
      | none => rw [hidx0] at hidx; simp at hidx
      | some j =>
        rw [hidx0] at hidx
        simp at hidx
        subst hidx
        simpa using ih j a hidx0 hfind

theorem findIdx?_of_find? {α : Type} (p : α → Bool) (l : List α) (a : α)
    (hfind : l.find? p = some a) :
    ∃ i, l.findIdx? p = some i ∧ l.get? i = some a := by
  have hsome : (l.findIdx? p).isSome := by
    rw [List.findIdx?_isSome]
    obtain ⟨x, hx, hpx⟩ := List.find?_isSome.mp (by rw [hfind]; rfl)
    exact List.any_eq_true.mpr ⟨x, hx, hpx⟩
  obtain ⟨i, hi⟩ := Option.isSome_iff_exists.mp hsome
  exact ⟨i, hi, get?_of_findIdx?_of_find? p l i a hi hfind⟩

theorem pairwise_get?_drop_rel {α : Type} (R : α → α → Prop) {l : List α} {i : Nat}
    {a b : α} (hpw : List.Pairwise R l) (hi : l.get? i = some a)
    (hb : b ∈ l.drop (i + 1)) : R a b := by
  have hpw' := hpw
  rw [← List.take_append_drop (i + 1) l] at hpw'
  refine (List.pairwise_append.mp hpw').2.2 a ?_ b hb
  have hlt : i < l.length := by
    by_contra hge
    rw [List.get?_eq_none.mpr (by omega)] at hi
    simp at hi
  have htake : (l.take (i + 1)).get? i = some a := by
    rw [List.get?_eq_getElem?] at hi ⊢
    rw [List.getElem?_take_of_lt (by omega)]
    exact hi
  exact List.get?_mem htake

theorem mem_sections_bounds (t : List Char) (s : Section)
    (hs : s ∈ (parseDocument t).sections) :
    1 ≤ s.line ∧ s.line ≤ (splitLines t).length := by
  rw [parseDocument_sections_def] at hs
  obtain ⟨s0, hs0, hline, -, -, -⟩ := fixupEnds_mem _ _ _ hs
  have hb := scanAux_mem_line_bounds (splitLines t).length _
    (fmEndLine (splitLines t)) false [] s0 hs0
  have hst := fmEndLine_le (splitLines t)
  rw [List.length_drop] at hb
  omega

theorem findSection_id (t : List Char) (id : List Char) (s : Section)
    (hs : findSection (parseDocument t) id = some s) : s.id = id := by
  have := List.find?_some hs
  simpa using this

theorem findSection_mem (t : List Char) (id : List Char) (s : Section)
    (hs : findSection (parseDocument t) id = some s) : s ∈ (parseDocument t).sections :=
  List.mem_of_find?_eq_some hs

/-- The `findSection` result is located by `findIndex` at a position whose
entry is the section itself, and the deep boundary from that position is
exactly the specification's `specDeepEnd`. -/
theorem getSectionEndLine_of_findSection (t : List Char) (id : List Char) (s : Section)
    (hs : findSection (parseDocument t) id = some s) :
    ∃ i, (parseDocument t).sections.findIdx? (fun x => x.id == s.id) = some i ∧
      (parseDocument t).sections.get? i = some s ∧
      getSectionEndLine (parseDocument t) s false = .ok s.lineEnd ∧
      getSectionEndLine (parseDocument t) s true = .ok (specDeepEnd (parseDocument t) i s) := by
  have hid : s.id = id := findSection_id t id s hs
  have hs' : (parseDocument t).sections.find? (fun x => x.id == s.id) = some s := by
    rw [hid]; exact hs
  obtain ⟨i, hidx, hget⟩ := findIdx?_of_find? _ _ _ hs'
  refine ⟨i, hidx, hget, ?_, ?_⟩
  · simp [getSectionEndLine, hidx]
  · simp only [getSectionEndLine, hidx]
    cases hfind : ((parseDocument t).sections.drop (i + 1)).find?
        (fun x => decide (x.level ≤ s.level)) with
    | none => simp [specDeepEnd, hfind]
    | some nx => simp [specDeepEnd, hfind]

/-- On the `findSection` result, `getSectionEndLine` never returns a line
below the section's header line (so the JS subtractions `endLine -
section.line` are non-negative exactly as in the source). -/
theorem le_getSectionEndLine (t : List Char) (id : List Char) (s : Section) (deep : Bool)
    (e : Nat) (hs : findSection (parseDocument t) id = some s)
    (he : getSectionEndLine (parseDocument t) s deep = .ok e) : s.line ≤ e := by
  obtain ⟨i, hidx, hget, hsh, hdp⟩ := getSectionEndLine_of_findSection t id s hs
  have hmem : s ∈ (parseDocument t).sections := findSection_mem t id s hs
  cases deep with
  | false =>
    rw [hsh] at he
    simp only [Except.ok.injEq] at he
    subst he
    exact (parse_invariants_core t).2.1 s hmem
  | true =>
    rw [hdp] at he
    simp only [Except.ok.injEq] at he
    subst he
    unfold specDeepEnd
    cases hfind : ((parseDocument t).sections.drop (i + 1)).find?
        (fun x => decide (x.level ≤ s.level)) with
    | none =>
      simp only
      have hbl := mem_sections_bounds t s hmem
      have : (parseDocument t).lines = splitLines t := rfl
      rw [this]
      exact le_trimBack _ _ _ hbl.2
    | some nx =>
      simp only
      have hnxmem : nx ∈ (parseDocument t).sections.drop (i + 1) :=
        List.mem_of_find?_eq_some hfind
      have hlt : s.line < nx.line :=
        pairwise_get?_drop_rel (fun a b : Section => a.line < b.line)
          (parse_invariants_core t).1 hget hnxmem
      omega

/-! ## Claim C5: replace-content (`write`) -/

/-- C5: for every replace-content (`write`) on a section present in the
document: the header line is kept and every line outside the replaced
content range is preserved verbatim (the new lines consist of the
untouched prefix through the header line, the spliced content, and the
untouched suffix from the resolved end line on); the spliced content is
the new content split on newlines with one leading blank added when it is
non-empty with a non-blank first line; and the result reports
`lineStart` = header line, `linesAdded` = number of inserted lines, and
`linesRemoved` = old content line count `e - s.line`. -/
theorem cmdWrite_spec (expand : List Char → List Char) (t id newContent : List Char)
    (deep : Bool) (s : Section) (e : Nat)
    (hid : isValidId id = true)
    (hs : findSection (parseDocument t) id = some s)
    (he : getSectionEndLine (parseDocument t) s deep = .ok e) :
    s.line ≤ e ∧
    cmdWrite expand t id newContent deep = .ok
      ({ parseDocument t with
          lines := (parseDocument t).lines.take s.line ++
            writeInsertedLines (expand newContent) ++ (parseDocument t).lines.drop e },
        { action := .updated, id := s.id, lineStart := s.line,
          lineEnd := some (s.line + (writeInsertedLines (expand newContent)).length),
          linesAdded := (writeInsertedLines (expand newContent)).length,
          linesRemoved := e - s.line }) := by
  refine ⟨le_getSectionEndLine t id s deep e hs he, ?_⟩
  by_cases h1 : expand newContent = []
  · simp [cmdWrite, writeInsertedLines, hid, hs, he, h1]
  · have hne : splitLines (expand newContent) ≠ [] := splitLines_ne_nil _
    by_cases h2 : trim ((splitLines (expand newContent)).headD []) = []
    · simp [cmdWrite, writeInsertedLines, hid, hs, he, h1, h2, List.length_pos.mpr hne]
    · simp [cmdWrite, writeInsertedLines, hid, hs, he, h1, h2, List.length_pos.mpr hne]

/-- Witness for `cmdWrite_spec`: the specification's write example — section
`A` of `"# A\nold\n\n# B\nkeep"` replaced with `"new"`. -/
theorem cmdWrite_spec_witness :
    (isValidId (sectionHash 1 (str "A") 0) = true ∧
      findSection (parseDocument c5Example) (sectionHash 1 (str "A") 0) =
        some ((parseDocument c5Example).sections.getD 0 default) ∧
      getSectionEndLine (parseDocument c5Example)
        ((parseDocument c5Example).sections.getD 0 default) false = .ok 3) ∧
    (((parseDocument c5Example).sections.getD 0 default).line ≤ 3 ∧
      cmdWrite (fun c => c) c5Example (sectionHash 1 (str "A") 0) (str "new") false = .ok
        ({ parseDocument c5Example with
            lines := (parseDocument c5Example).lines.take
                ((parseDocument c5Example).sections.getD 0 default).line ++
              writeInsertedLines (str "new") ++ (parseDocument c5Example).lines.drop 3 },
          { action := .updated, id := ((parseDocument c5Example).sections.getD 0 default).id,
            lineStart := ((parseDocument c5Example).sections.getD 0 default).line,
            lineEnd := some (((parseDocument c5Example).sections.getD 0 default).line +
              (writeInsertedLines (str "new")).length),
            linesAdded := (writeInsertedLines (str "new")).length,
            linesRemoved := 3 - ((parseDocument c5Example).sections.getD 0 default).line })) :=
  ⟨⟨by decide, by decide, by decide⟩,
    cmdWrite_spec (fun c => c) c5Example (sectionHash 1 (str "A") 0) (str "new") false _ 3
      (by decide) (by decide) (by decide)⟩

/-! ## Claim C6: delete-section (`remove`) -/

/-- C6: every `remove` of a section present in the document (the `remove`
command takes no deep/shallow flag; it always resolves the deep boundary)
splices out the header line (`take (s.line - 1)` keeps only the lines
above it) together with the section's entire deep range — up to the line
before the next section of level ≤ the target's, or trimmed end of file
(`specDeepEnd`) — so no descendant subsection's header survives, and
`linesRemoved` counts the deep content plus one for the header.  The
second conjunct is the specification's example: removing `# A` from
`"# A\nx\n\n## B\ny\n\n# C"` leaves exactly `["# C"]` with 6 lines
removed, not an orphaned `## B`. -/
theorem cmdRemove_spec :
    (∀ (t id : List Char) (s : Section),
      isValidId id = true →
      findSection (parseDocument t) id = some s →
      ∃ i, (parseDocument t).sections.get? i = some s ∧
        s.line ≤ specDeepEnd (parseDocument t) i s ∧
        cmdRemove t id = .ok
          ({ parseDocument t with
              lines := (parseDocument t).lines.take (s.line - 1) ++
                (parseDocument t).lines.drop (specDeepEnd (parseDocument t) i s) },
            { action := .removed, id := s.id, lineStart := s.line, lineEnd := none,
              linesAdded := 0,
              linesRemoved := specDeepEnd (parseDocument t) i s - s.line + 1 })) ∧
    ((cmdRemove c3Example (sectionHash 1 (str "A") 0)).toOption.map
        (fun p => (p.1.lines, p.2.linesRemoved)) =
      some ([str "# C"], 6)) := by
  constructor
  · intro t id s hid hs
    obtain ⟨i, hidx, hget, hsh, hdp⟩ := getSectionEndLine_of_findSection t id s hs
    refine ⟨i, hget, le_getSectionEndLine t id s true _ hs hdp, ?_⟩
    simp [cmdRemove, hid, hs, hdp]
  · decide

/-- Witness for `cmdRemove_spec`: its universal conjunct instantiated on the
specification's remove example. -/
theorem cmdRemove_spec_witness :
    (isValidId (sectionHash 1 (str "A") 0) = true ∧
      findSection (parseDocument c3Example) (sectionHash 1 (str "A") 0) =
        some ((parseDocument c3Example).sections.getD 0 default)) ∧
    (∃ i, (parseDocument c3Example).sections.get? i =
        some ((parseDocument c3Example).sections.getD 0 default) ∧
      ((parseDocument c3Example).sections.getD 0 default).line ≤
        specDeepEnd (parseDocument c3Example) i
          ((parseDocument c3Example).sections.getD 0 default) ∧
      cmdRemove c3Example (sectionHash 1 (str "A") 0) = .ok
        ({ parseDocument c3Example with
            lines := (parseDocument c3Example).lines.take
                (((parseDocument c3Example).sections.getD 0 default).line - 1) ++
              (parseDocument c3Example).lines.drop
                (specDeepEnd (parseDocument c3Example) i
                  ((parseDocument c3Example).sections.getD 0 default)) },
          { action := .removed, id := ((parseDocument c3Example).sections.getD 0 default).id,
            lineStart := ((parseDocument c3Example).sections.getD 0 default).line,
            lineEnd := none, linesAdded := 0,
            linesRemoved := specDeepEnd (parseDocument c3Example) i
                ((parseDocument c3Example).sections.getD 0 default) -
              ((parseDocument c3Example).sections.getD 0 default).line + 1 })) :=
  ⟨⟨by decide, by decide⟩,
    cmdRemove_spec.1 c3Example (sectionHash 1 (str "A") 0) _ (by decide) (by decide)⟩

/-! ## Claim C9: id-shape and lookup failures -/

/-- C9: for every operation taking a target section id — `read`, `write`,
append-with-id, `empty`, `remove` — an id failing the 8-hex-char shape
check yields the structured error `invalid_id`, and a well-formed id
carried by no section of the parsed document yields `section_not_found`. -/
theorem id_error_spec (expand : List Char → List Char) (t id newContent : List Char)
    (deep before : Bool) :
    (isValidId id = false →
      cmdRead t id deep = .error .invalid_id ∧
      cmdWrite expand t id newContent deep = .error .invalid_id ∧
      cmdAppend expand t (some id) newContent deep before = .error .invalid_id ∧
      cmdEmpty t id deep = .error .invalid_id ∧
      cmdRemove t id = .error .invalid_id) ∧
    (isValidId id = true → findSection (parseDocument t) id = none →
      cmdRead t id deep = .error .section_not_found ∧
      cmdWrite expand t id newContent deep = .error .section_not_found ∧
      cmdAppend expand t (some id) newContent deep before = .error .section_not_found ∧
      cmdEmpty t id deep = .error .section_not_found ∧
      cmdRemove t id = .error .section_not_found) := by
  constructor
  · intro h
    refine ⟨?_, ?_, ?_, ?_, ?_⟩ <;> simp [cmdRead, cmdWrite, cmdAppend, cmdEmpty, cmdRemove, h]
  · intro h hn
    refine ⟨?_, ?_, ?_, ?_, ?_⟩ <;>
      simp [cmdRead, cmdWrite, cmdAppend, cmdEmpty, cmdRemove, h, hn]

/-- Witness for `id_error_spec`: `"xyz"` fails the shape check on all five
operations, and the well-formed `"deadbeef"` is absent from `"# A"`. -/
theorem id_error_spec_witness :
    ((isValidId (str "xyz") = false) ∧
      (cmdRead (str "# A") (str "xyz") false = .error .invalid_id ∧
        cmdWrite (fun c => c) (str "# A") (str "xyz") (str "x") false = .error .invalid_id ∧
        cmdAppend (fun c => c) (str "# A") (some (str "xyz")) (str "x") false false =
          .error .invalid_id ∧
        cmdEmpty (str "# A") (str "xyz") false = .error .invalid_id ∧
        cmdRemove (str "# A") (str "xyz") = .error .invalid_id)) ∧
    ((isValidId (str "deadbeef") = true ∧
        findSection (parseDocument (str "# A")) (str "deadbeef") = none) ∧
      (cmdRead (str "# A") (str "deadbeef") false = .error .section_not_found ∧
        cmdWrite (fun c => c) (str "# A") (str "deadbeef") (str "x") false =
          .error .section_not_found ∧
        cmdAppend (fun c => c) (str "# A") (some (str "deadbeef")) (str "x") false false =
          .error .section_not_found ∧
        cmdEmpty (str "# A") (str "deadbeef") false = .error .section_not_found ∧
        cmdRemove (str "# A") (str "deadbeef") = .error .section_not_found)) :=
  ⟨⟨by decide,
      (id_error_spec (fun c => c) (str "# A") (str "xyz") (str "x") false false).1 (by decide)⟩,
    ⟨⟨by decide, by decide⟩,
      (id_error_spec (fun c => c) (str "# A") (str "deadbeef") (str "x") false false).2
        (by decide) (by decide)⟩⟩

/-! ## Claim C10: failed mutations do not touch the file -/

/-- C10: for every mutating operation (`write`, append-with-id, `empty`,
`remove`) that fails with `invalid_id` or `section_not_found`, the file's
content is unchanged: the source raises these errors before its single
`writeFile` call, so a failed mutation persists nothing. -/
theorem failed_mutation_atomic (expand : List Char → List Char)
    (id newContent : List Char) (deep before : Bool) (fs : List Char) :
    (((runWrite expand id newContent deep fs).1 = .error .invalid_id ∨
        (runWrite expand id newContent deep fs).1 = .error .section_not_found) →
      (runWrite expand id newContent deep fs).2 = fs) ∧
    (((runAppend expand (some id) newContent deep before fs).1 = .error .invalid_id ∨
        (runAppend expand (some id) newContent deep before fs).1 = .error .section_not_found) →
      (runAppend expand (some id) newContent deep before fs).2 = fs) ∧
    (((runEmpty id deep fs).1 = .error .invalid_id ∨
        (runEmpty id deep fs).1 = .error .section_not_found) →
      (runEmpty id deep fs).2 = fs) ∧
    (((runRemove id fs).1 = .error .invalid_id ∨
        (runRemove id fs).1 = .error .section_not_found) →
      (runRemove id fs).2 = fs) := by
  refine ⟨?_, ?_, ?_, ?_⟩
  · intro h
    unfold runWrite at h ⊢
    cases hc : cmdWrite expand fs id newContent deep with
    | ok p => rw [hc] at h; rcases h with h | h <;> simp at h
    | error e => simp [hc]
  · intro h
    unfold runAppend at h ⊢
    cases hc : cmdAppend expand fs (some id) newContent deep before with
    | ok p => rw [hc] at h; rcases h with h | h <;> simp at h
    | error e => simp [hc]
  · intro h
    unfold runEmpty at h ⊢
    cases hc : cmdEmpty fs id deep with
    | ok p => rw [hc] at h; rcases h with h | h <;> simp at h
    | error e => simp [hc]
  · intro h
    unfold runRemove at h ⊢
    cases hc : cmdRemove fs id with
    | ok p => rw [hc] at h; rcases h with h | h <;> simp at h
    | error e => simp [hc]

/-- Witness for `failed_mutation_atomic`: an invalid id leaves the file
text `"# A\nx"` untouched in all four mutating operations. -/
theorem failed_mutation_atomic_witness :
    (runWrite (fun c => c) (str "xyz") (str "n") false (str "# A\nx")).2 = str "# A\nx" ∧
    (runAppend (fun c => c) (some (str "xyz")) (str "n") false false (str "# A\nx")).2 =
      str "# A\nx" ∧
    (runEmpty (str "xyz") false (str "# A\nx")).2 = str "# A\nx" ∧
    (runRemove (str "xyz") (str "# A\nx")).2 = str "# A\nx" :=
  ⟨(failed_mutation_atomic (fun c => c) (str "xyz") (str "n") false false (str "# A\nx")).1
      (by decide),
    (failed_mutation_atomic (fun c => c) (str "xyz") (str "n") false false (str "# A\nx")).2.1
      (by decide),
    (failed_mutation_atomic (fun c => c) (str "xyz") (str "n") false false (str "# A\nx")).2.2.1
      (by decide),
    (failed_mutation_atomic (fun c => c) (str "xyz") (str "n") false false (str "# A\nx")).2.2.2
      (by decide)⟩

/-! ## Claim C4: append of header-content and the reported id -/

/-- C4 evaluated at a failing input (the code contradicts the claim and its
own comment `// Re-parse to get the new section's ID`): appending
`"# B\nnew"` at end of `"# A\nx"` injects a separating blank line (the
preceding line `x` and the first new line are non-blank), so the new
header lands at 1-indexed line `insertLine + 2 = 4`, while the re-parse
lookup matches `line == insertLine + 1 = 3` — the blank line.  The lookup
misses, the result keeps the fallback id `"-"` (no target section), and
`lineStart` likewise points at the blank line, even though the
post-insertion text does contain the new section `B` with its derivable
id.  The action is still reported as `created`. -/
theorem cmdAppend_created_id_bug :
    ((cmdAppend (fun c => c) c4File none c4Content false false).toOption.map
        (fun p => (p.2.action, p.2.id, p.2.lineStart, serializeDocument p.1)) =
      some (.created, ['-'], 3, str "# A\nx\n\n# B\nnew")) ∧
    ((parseDocument (str "# A\nx\n\n# B\nnew")).sections.map (fun s => (s.title, s.line, s.id)) =
      [(str "A", 1, sectionHash 1 (str "A") 0), (str "B", 4, sectionHash 1 (str "B") 0)]) ∧
    sectionHash 1 (str "B") 0 ≠ ['-'] := by
  refine ⟨by decide, by decide, by decide⟩

end MdSurgeon
